import Mathlib

/-!
Shallow embedding of `src/merge_future.rs` from the `udp-jitter-test-linux`
repository: the `FuturesMergerMemoryOwner` / `FuturesMerger` /
`FuturesMergerAwait` combinator that awaits many homogeneous futures while
reusing the backing allocation across iterations.

Modelling conventions:
* A concrete future type `F` is represented in two ways: where only its
  memory layout matters (layout checks, recorded destructors) it is the
  pair `(size, align) : Nat × Nat`; where its polling behaviour matters it
  is `Fut ε`, a script of poll outcomes plus a poll counter.
* The raw backing block (`RawVoidPtr` in the source) is represented by the
  identity of its heap allocation: `Option Nat`.  A fresh-allocation
  counter is threaded through `push` so that new allocations are
  observable.
* `&mut` state is modelled by explicit state passing: each operation takes
  the states it mutates and returns the updated states.
-/

set_option maxHeartbeats 1000000
set_option linter.unusedVariables false

namespace MergeFuture

variable {ε : Type} {φ : Type} {α : Type}

/-- Outcome of polling one future once: `Poll::Pending`,
`Poll::Ready(Ok(()))` or `Poll::Ready(Err e)`. -/
inductive PollRes (ε : Type) where
  | pend
  | ok
  | err (e : ε)
deriving DecidableEq

/-- Model of one pushed future (the environment's side of the poll
contract): `script` is the sequence of results its future polls will
return, in order; `polls` counts how many times it has been polled, so
that "this future was never polled again" is an observable fact. -/
structure Fut (ε : Type) where
  script : List (PollRes ε)
  polls : Nat
deriving DecidableEq

instance : Inhabited (Fut ε) := ⟨⟨[], 0⟩⟩

/-- The result the next poll of `f` returns (scripts that ran out keep
reporting `pend`). -/
def Fut.headRes (f : Fut ε) : PollRes ε := f.script.headD .pend

/-- The state of `f` after one more poll: the script advances one step and
the poll counter increases. -/
def Fut.afterPoll (f : Fut ε) : Fut ε := ⟨f.script.tail, f.polls + 1⟩

/-- Polling a future: returns the next scripted outcome and the advanced
future. -/
def Fut.poll (f : Fut ε) : PollRes ε × Fut ε := (f.headRes, f.afterPoll)

/-- Model of a Rust `Vec`'s backing store: `data` holds the elements,
`cap` the capacity and `blk` the identity of the heap allocation (`none`
iff the vector has never allocated). -/
structure TVec (φ : Type) where
  data : List φ
  cap : Nat
  blk : Option Nat
deriving DecidableEq

/-- `Vec::push`: appends in place when there is spare capacity; otherwise
grows into a new allocation, whose identity is drawn from (and advances)
the fresh-allocation counter. -/
def TVec.push (v : TVec φ) (x : φ) (fresh : Nat) : TVec φ × Nat :=
  if v.data.length < v.cap then ({ v with data := v.data ++ [x] }, fresh)
  else (⟨v.data ++ [x], max (2 * v.cap) (v.data.length + 1), some fresh⟩, fresh + 1)

/-- `WrongLayoutError { old_layout, new_layout }` with layouts as
`(size, align)` pairs. -/
structure WrongLayoutError where
  old_layout : Nat × Nat
  new_layout : Nat × Nat
deriving DecidableEq

/-- `FuturesMergerMemoryOwner`: the persistent storage cell.  `drop_fn`
stores which instantiation `drop_vec::<F>` was recorded, identified by
`F`'s layout. -/
structure FuturesMergerMemoryOwner where
  data : Option Nat
  capacity : Nat
  to_poll : List Nat
  layout : Option (Nat × Nat)
  drop_fn : Option (Nat × Nat)
deriving DecidableEq

/-- `FuturesMergerMemoryOwner::default()`. -/
def FuturesMergerMemoryOwner.default : FuturesMergerMemoryOwner :=
  ⟨none, 0, [], none, none⟩

/-- A deallocation performed while tearing the owner down (`drop(v)` on
the reconstructed `Vec`): which block, at which capacity, reclaimed as
which recorded type. -/
structure DeallocEvent where
  blk : Nat
  cap : Nat
  tag : Nat × Nat
deriving DecidableEq

/-- `drop_vec::<T>(ptr, cap)`: reconstructs and drops the `Vec` only when
the raw pointer is present; returns the deallocations it performs. -/
def drop_vec (tag : Nat × Nat) (ptr : Option Nat) (cap : Nat) : List DeallocEvent :=
  match ptr with
  | none => []
  | some b => [⟨b, cap, tag⟩]

/-- `impl Drop for FuturesMergerMemoryOwner`: invoke the recorded erased
destructor, if any, on `data`/`capacity`; returns the deallocations it
performs. -/
def ownerDrop (m : FuturesMergerMemoryOwner) : List DeallocEvent :=
  match m.drop_fn with
  | none => []
  | some tag => drop_vec tag m.data m.capacity

/-- `FuturesMergerMemoryOwner::borrow::<F, E>` for a future type of layout
`fL`: checks the recorded layout, then takes the raw block and
reconstructs a zero-length typed vector over it (`Vec::new()` if no block
was ever allocated).  Returns the result together with the owner's state
after the call. -/
def FuturesMergerMemoryOwner.borrow (fL : Nat × Nat)
    (m : FuturesMergerMemoryOwner) :
    Except WrongLayoutError (TVec (Fut ε)) × FuturesMergerMemoryOwner :=
  match m.layout with
  | some l =>
    if l ≠ fL then (.error ⟨l, fL⟩, m)
    else
      match m.data with
      | none => (.ok ⟨[], 0, none⟩, { m with data := none })
      | some p => (.ok ⟨[], m.capacity, some p⟩, { m with data := none })
  | none =>
    match m.data with
    | none => (.ok ⟨[], 0, none⟩, { m with data := none })
    | some p => (.ok ⟨[], m.capacity, some p⟩, { m with data := none })

/-- `FuturesMerger::push`: appends the future to the backing vector and
pushes the new element's index (`futures.len() - 1`) onto the owner's
`to_poll`. -/
def mergerPush (m : FuturesMergerMemoryOwner) (v : TVec (Fut ε)) (f : Fut ε)
    (fresh : Nat) : FuturesMergerMemoryOwner × TVec (Fut ε) × Nat :=
  let pr := v.push f fresh
  ({ m with to_poll := m.to_poll ++ [pr.1.data.length - 1] }, pr.1, pr.2)

/-- A whole sequence of `push` calls, in order. -/
def pushAll (m : FuturesMergerMemoryOwner) (v : TVec (Fut ε))
    (ops : List (Fut ε)) (fresh : Nat) :
    FuturesMergerMemoryOwner × TVec (Fut ε) × Nat :=
  match ops with
  | [] => (m, v, fresh)
  | f :: rest =>
    let st := mergerPush m v f fresh
    pushAll st.1 st.2.1 rest st.2.2

/-- `impl Drop for FuturesMerger`: clears the futures vector and
`to_poll`; when the vector has capacity the block and capacity move back
to the owner, and on the first-ever session (no recorded `drop_fn`) the
layout and erased destructor are recorded. -/
def mergerDrop (fL : Nat × Nat) (m : FuturesMergerMemoryOwner)
    (v : TVec (Fut ε)) : FuturesMergerMemoryOwner :=
  let v' : TVec (Fut ε) := { v with data := [] }
  let m' : FuturesMergerMemoryOwner := { m with to_poll := [] }
  if v'.cap = 0 then m'
  else
    let m2 : FuturesMergerMemoryOwner :=
      { m' with data := v'.blk, capacity := v'.cap }
    if m2.drop_fn = none then { m2 with layout := some fL, drop_fn := some fL }
    else m2

/-- `impl Drop for FuturesMergerAwait`: clears the futures vector and
`to_poll`, touching nothing else (in particular the capacity). -/
def awaitDrop (v : TVec (Fut ε)) (tp : List Nat) : TVec (Fut ε) × List Nat :=
  ({ v with data := [] }, [])

/-- `Vec::swap_remove(i)`: overwrite position `i` with the last element
and pop the last element. -/
def swapRemove (l : List α) (i : Nat) : List α :=
  match l.getLast? with
  | none => []
  | some last => (l.set i last).dropLast

/-- Outcome of one call to `FuturesMergerAwait::poll`. -/
inductive ScanRes (ε : Type) where
  | pending
  | ready (r : Except ε Unit)

/-- The body of `FuturesMergerAwait::poll`, entered mid-scan: `pending` is
the local flag, `i` the cursor into `to_poll`.  On `Ready(Ok)` the current
index is swap-removed and the cursor stays; on `Ready(Err e)` both lists
are cleared and the error is returned; on `Pending` the flag is set and
the cursor advances.  After the loop: `Pending` if the flag is set, else
clear both lists and return `Ready(Ok(()))`. -/
def scanFrom (fs : TVec (Fut ε)) (tp : List Nat) (pending : Bool) (i : Nat) :
    ScanRes ε × TVec (Fut ε) × List Nat :=
  if h : i < tp.length then
    let idx := tp.getD i 0
    let pr := (fs.data.getD idx default).poll
    let fs' : TVec (Fut ε) := { fs with data := fs.data.set idx pr.2 }
    match pr.1 with
    | .ok => scanFrom fs' (swapRemove tp i) pending i
    | .err e => (.ready (.error e), { fs' with data := [] }, [])
    | .pend => scanFrom fs' tp true (i + 1)
  else if pending then (.pending, fs, tp)
  else (.ready (.ok ()), { fs with data := [] }, [])
termination_by tp.length - i
decreasing_by
  · have hne : tp ≠ [] := by
      intro hnil
      rw [hnil] at h
      simp at h
    have hlen : (swapRemove tp i).length = tp.length - 1 := by
      unfold swapRemove
      cases hl : tp.getLast? with
      | none => exact absurd (List.getLast?_eq_none_iff.mp hl) hne
      | some last => simp
    rw [hlen]
    omega
  · omega

/-- One call to `FuturesMergerAwait::poll` (local flag false, cursor 0). -/
def pollMerger (fs : TVec (Fut ε)) (tp : List Nat) :
    ScanRes ε × TVec (Fut ε) × List Nat :=
  scanFrom fs tp false 0

/-- Driving the handle: repeat `poll` while it returns `Pending`, up to
`fuel` times; `none` means the fuel ran out with the handle still
pending. -/
def drive (fuel : Nat) (fs : TVec (Fut ε)) (tp : List Nat) :
    Option (Except ε Unit) × TVec (Fut ε) × List Nat :=
  match fuel with
  | 0 => (none, fs, tp)
  | fuel + 1 =>
    match pollMerger fs tp with
    | (.ready r, fs', tp') => (some r, fs', tp')
    | (.pending, fs', tp') => drive fuel fs' tp'

/-- One full iteration of the usage pattern: borrow a session, push a
batch of operations, drop the session (running the handle does not change
the backing allocation, so it is irrelevant to allocation reuse). -/
def iteration (fL : Nat × Nat) (ops : List (Fut ε))
    (m : FuturesMergerMemoryOwner) (fresh : Nat) :
    Except WrongLayoutError (FuturesMergerMemoryOwner × Nat) :=
  match FuturesMergerMemoryOwner.borrow fL m with
  | (.error e, _) => .error e
  | (.ok v, m') =>
    let st := pushAll m' v ops fresh
    .ok (mergerDrop fL st.1 st.2.1, st.2.2)

/-- A sequence of iterations over one owner with one future type. -/
def iterate (fL : Nat × Nat) (batches : List (List (Fut ε)))
    (m : FuturesMergerMemoryOwner) (fresh : Nat) :
    Except WrongLayoutError (FuturesMergerMemoryOwner × Nat) :=
  match batches with
  | [] => .ok (m, fresh)
  | b :: bs =>
    match iteration fL b m fresh with
    | .error e => .error e
    | .ok st => iterate fL bs st.1 st.2

/-- `f` succeeds at its `n`-th poll: its next `n` polls report pending and
the poll after those reports success ("eventually succeeds"). -/
def SucceedsIn (f : Fut ε) : Nat → Prop
  | 0 => f.headRes = .ok
  | n + 1 => f.headRes = .pend ∧ SucceedsIn f.afterPoll n

/-- The result the next poll of the future at slot `idx` would report. -/
def headAt (fs : TVec (Fut ε)) (idx : Nat) : PollRes ε :=
  (fs.data.getD idx default).headRes

/-! ### Properties of `swapRemove` -/

theorem swapRemove_length (l : List α) (i : Nat) (h : l ≠ []) :
    (swapRemove l i).length = l.length - 1 := by
  unfold swapRemove
  cases hl : l.getLast? with
  | none => exact absurd (List.getLast?_eq_none_iff.mp hl) h
  | some last => simp

theorem swapRemove_eq (i : Nat) {l : List α} {last : α}
    (h : l.getLast? = some last) :
    swapRemove l i = (l.set i last).dropLast := by
  unfold swapRemove
  rw [h]

theorem swapRemove_perm (l : List α) (i : Nat) (h : i < l.length) :
    (swapRemove l i).Perm (l.eraseIdx i) := by
  induction l generalizing i with
  | nil => simp at h
  | cons a l ih =>
    cases i with
    | zero =>
      cases l with
      | nil => simp [swapRemove]
      | cons b l' =>
        obtain ⟨last, hlast⟩ : ∃ x, (b :: l').getLast? = some x := by
          cases hx : (b :: l').getLast? with
          | none => simp at hx
          | some x => exact ⟨x, rfl⟩
        have hlast2 : (a :: b :: l').getLast? = some last := by
          rw [List.getLast?_cons_cons]
          exact hlast
        rw [swapRemove_eq 0 hlast2, List.set_cons_zero,
          List.dropLast_cons₂, List.eraseIdx_cons_zero]
        calc (last :: (b :: l').dropLast).Perm ((b :: l').dropLast ++ [last]) :=
              (List.perm_append_singleton _ _).symm
          _ = b :: l' := List.dropLast_append_getLast? _ hlast
    | succ i =>
      obtain ⟨b, l', rfl⟩ : ∃ b l', l = b :: l' := by
        cases l with
        | nil => simp at h
        | cons b l' => exact ⟨b, l', rfl⟩
      obtain ⟨last, hlast⟩ : ∃ x, (b :: l').getLast? = some x := by
        cases hx : (b :: l').getLast? with
        | none => simp at hx
        | some x => exact ⟨x, rfl⟩
      have hlast2 : (a :: b :: l').getLast? = some last := by
        rw [List.getLast?_cons_cons]
        exact hlast
      have hi : i < (b :: l').length := by
        simp only [List.length_cons] at h ⊢
        omega
      have hrec := ih i hi
      rw [swapRemove_eq i hlast] at hrec
      rw [swapRemove_eq (i + 1) hlast2, List.set_cons_succ,
        List.dropLast_cons_of_ne_nil (by simp), List.eraseIdx_cons_succ]
      exact hrec.cons a

theorem swapRemove_nodup (l : List α) (i : Nat) (h : i < l.length)
    (hn : l.Nodup) : (swapRemove l i).Nodup :=
  ((swapRemove_perm l i h).symm).nodup ((List.eraseIdx_sublist l i).nodup hn)

theorem mem_eraseIdx_nodup (l : List Nat) (i : Nat) (hn : l.Nodup)
    (h : i < l.length) (x : Nat) :
    x ∈ l.eraseIdx i ↔ x ∈ l ∧ x ≠ l.getD i 0 := by
  rw [List.getD_eq_getElem l 0 h]
  constructor
  · intro hx
    obtain ⟨j, hj, hji, rfl⟩ := List.mem_eraseIdx_iff_getElem.mp hx
    refine ⟨List.getElem_mem hj, ?_⟩
    intro heq
    exact hji ((List.Nodup.getElem_inj_iff hn).mp heq)
  · rintro ⟨hx, hne⟩
    obtain ⟨j, hj, rfl⟩ := List.getElem_of_mem hx
    refine List.mem_eraseIdx_iff_getElem.mpr ⟨j, hj, ?_, rfl⟩
    intro hji
    subst hji
    exact hne rfl

theorem mem_swapRemove (l : List Nat) (i : Nat) (hn : l.Nodup)
    (h : i < l.length) (x : Nat) :
    x ∈ swapRemove l i ↔ x ∈ l ∧ x ≠ l.getD i 0 := by
  rw [(swapRemove_perm l i h).mem_iff]
  exact mem_eraseIdx_nodup l i hn h x

theorem swapRemove_take (l : List α) (i : Nat) (h : i < l.length) :
    (swapRemove l i).take i = l.take i := by
  obtain ⟨last, hlast⟩ : ∃ x, l.getLast? = some x := by
    cases hx : l.getLast? with
    | none =>
      rw [List.getLast?_eq_none_iff] at hx
      subst hx
      simp at h
    | some x => exact ⟨x, rfl⟩
  rw [swapRemove_eq i hlast]
  apply List.ext_getElem
  · simp
    omega
  · intro j h1 h2
    have hji : j < i := by
      simp only [List.length_take, List.length_dropLast, List.length_set,
        Nat.lt_min] at h1
      exact h1.1
    rw [List.getElem_take, List.getElem_take, List.getElem_dropLast,
      List.getElem_set_ne (by omega)]

theorem swapRemove_getD (l : List Nat) (i : Nat) (h : i + 1 < l.length) :
    (swapRemove l i).getD i 0 = l.getLast?.getD 0 := by
  obtain ⟨last, hlast⟩ : ∃ x, l.getLast? = some x := by
    cases hx : l.getLast? with
    | none =>
      rw [List.getLast?_eq_none_iff] at hx
      subst hx
      simp at h
    | some x => exact ⟨x, rfl⟩
  rw [swapRemove_eq i hlast, hlast]
  have hlen : i < ((l.set i last).dropLast).length := by
    simp
    omega
  rw [List.getD_eq_getElem _ 0 hlen, List.getElem_dropLast,
    List.getElem_set_self]
  rfl

/-! ### Generic list helpers -/

theorem getD_set_self (l : List α) (i : Nat) (h : i < l.length) (a d : α) :
    (l.set i a).getD i d = a := by
  rw [List.getD_eq_getElem?_getD, List.getElem?_set_self h]
  rfl

theorem getD_set_ne (l : List α) {i j : Nat} (h : i ≠ j) (a d : α) :
    (l.set i a).getD j d = l.getD j d := by
  rw [List.getD_eq_getElem?_getD, List.getElem?_set_ne h,
    ← List.getD_eq_getElem?_getD]

theorem mem_drop_iff_nodup (l : List Nat) (i : Nat) (hn : l.Nodup) (x : Nat) :
    x ∈ l.drop i ↔ x ∈ l ∧ x ∉ l.take i := by
  constructor
  · intro hx
    exact ⟨List.mem_of_mem_drop hx, fun ht => (List.disjoint_take_drop hn le_rfl) ht hx⟩
  · rintro ⟨hx, hnt⟩
    rw [← List.take_append_drop i l] at hx
    rcases List.mem_append.mp hx with hm | hm
    · exact absurd hm hnt
    · exact hm

theorem mem_drop_swapRemove (l : List Nat) (i : Nat) (hn : l.Nodup)
    (h : i < l.length) (x : Nat) :
    x ∈ (swapRemove l i).drop i ↔ x ∈ l.drop i ∧ x ≠ l.getD i 0 := by
  rw [mem_drop_iff_nodup _ _ (swapRemove_nodup l i h hn), swapRemove_take l i h,
    mem_swapRemove l i hn h, mem_drop_iff_nodup l i hn]
  tauto

theorem getD_mem_drop (l : List Nat) (i : Nat) (h : i < l.length) :
    l.getD i 0 ∈ l.drop i := by
  rw [List.drop_eq_getElem_cons h, List.getD_eq_getElem l 0 h]
  exact List.mem_cons_self _ _

theorem getD_not_mem_drop_succ (l : List Nat) (i : Nat) (hn : l.Nodup)
    (h : i < l.length) : l.getD i 0 ∉ l.drop (i + 1) := by
  have hd : (l.drop i).Nodup := (List.drop_sublist i l).nodup hn
  rw [List.drop_eq_getElem_cons h, List.nodup_cons] at hd
  rw [List.getD_eq_getElem l 0 h]
  exact hd.1

theorem mem_drop_succ_iff (l : List Nat) (i : Nat) (h : i < l.length) (x : Nat) :
    x ∈ l.drop i ↔ x = l.getD i 0 ∨ x ∈ l.drop (i + 1) := by
  rw [List.drop_eq_getElem_cons h, List.getD_eq_getElem l 0 h, List.mem_cons]

theorem mem_take_succ_iff (l : List Nat) (i : Nat) (h : i < l.length) (x : Nat) :
    x ∈ l.take (i + 1) ↔ x ∈ l.take i ∨ x = l.getD i 0 := by
  rw [List.getD_eq_getElem l 0 h, List.take_succ, List.getElem?_eq_getElem h,
    List.mem_append]
  simp only [Option.toList_some, List.mem_singleton]

/-! ### Characterisation of one scan of `FuturesMergerAwait::poll` -/

theorem scanFrom_spec (fs : TVec (Fut ε)) (tp : List Nat) (pending : Bool)
    (i : Nat) :
    (∀ idx ∈ tp, idx < fs.data.length) → tp.Nodup →
    (∀ idx ∈ tp.drop i, ∀ e, headAt fs idx ≠ .err e) →
    ((pending = false ∧ ∀ idx ∈ tp.drop i, headAt fs idx = .ok) →
        scanFrom fs tp pending i
          = (.ready (.ok ()), ⟨[], fs.cap, fs.blk⟩, ([] : List Nat)))
    ∧ ((pending = true ∨ ∃ idx ∈ tp.drop i, headAt fs idx = .pend) →
        ∃ fs2 tp2, scanFrom fs tp pending i = (.pending, fs2, tp2)
          ∧ (∀ idx, idx ∈ tp2
              ↔ (idx ∈ tp.take i ∨ (idx ∈ tp.drop i ∧ headAt fs idx = .pend)))
          ∧ tp2.Nodup
          ∧ fs2.data.length = fs.data.length
          ∧ fs2.cap = fs.cap
          ∧ fs2.blk = fs.blk
          ∧ (∀ idx ∈ tp.drop i,
              fs2.data.getD idx default = (fs.data.getD idx default).afterPoll)
          ∧ (∀ idx, idx ∉ tp.drop i →
              fs2.data.getD idx default = fs.data.getD idx default)) := by
  induction fs, tp, pending, i using scanFrom.induct with
  | case1 fs tp pending i h idx pr fs' hok ih =>
    intro Hb Hn He
    have hmemd : tp.getD i 0 ∈ tp.drop i := getD_mem_drop tp i h
    have hmem : tp.getD i 0 ∈ tp := List.mem_of_mem_drop hmemd
    have hlt : tp.getD i 0 < fs.data.length := Hb _ hmem
    have hok' : headAt fs (tp.getD i 0) = .ok := hok
    have hdata' : fs'.data = fs.data.set (tp.getD i 0) pr.2 := rfl
    have hlen' : fs'.data.length = fs.data.length := by
      rw [hdata', List.length_set]
    have hcap' : fs'.cap = fs.cap := rfl
    have hblk' : fs'.blk = fs.blk := rfl
    have hgd_self : fs'.data.getD (tp.getD i 0) default
        = (fs.data.getD (tp.getD i 0) default).afterPoll := by
      rw [hdata', getD_set_self _ _ hlt]
      rfl
    have hgd_ne : ∀ x, x ≠ tp.getD i 0 →
        fs'.data.getD x default = fs.data.getD x default := by
      intro x hne
      rw [hdata', getD_set_ne _ (fun hh => hne hh.symm)]
    have hhead_ne : ∀ x, x ≠ tp.getD i 0 → headAt fs' x = headAt fs x := by
      intro x hne
      unfold headAt
      rw [hgd_ne x hne]
    have Hb2 : ∀ x ∈ swapRemove tp i, x < fs'.data.length := by
      intro x hx
      rw [hlen']
      exact Hb x ((mem_swapRemove tp i Hn h x).mp hx).1
    have Hn2 : (swapRemove tp i).Nodup := swapRemove_nodup tp i h Hn
    have He2 : ∀ x ∈ (swapRemove tp i).drop i, ∀ e, headAt fs' x ≠ .err e := by
      intro x hx e
      obtain ⟨hx1, hx2⟩ := (mem_drop_swapRemove tp i Hn h x).mp hx
      rw [hhead_ne x hx2]
      exact He x hx1 e
    have ihs := ih Hb2 Hn2 He2
    constructor
    · rintro ⟨hpf, hall⟩
      have hall2 : ∀ x ∈ (swapRemove tp i).drop i, headAt fs' x = .ok := by
        intro x hx
        obtain ⟨hx1, hx2⟩ := (mem_drop_swapRemove tp i Hn h x).mp hx
        rw [hhead_ne x hx2]
        exact hall x hx1
      have := ihs.1 ⟨hpf, hall2⟩
      rw [scanFrom]
      simp only [dif_pos h]
      rw [hok]
      exact this
    · intro hB
      have hB2 : pending = true ∨ ∃ x ∈ (swapRemove tp i).drop i,
          headAt fs' x = .pend := by
        rcases hB with hp | ⟨x, hx, hh⟩
        · exact Or.inl hp
        · refine Or.inr ⟨x, ?_, ?_⟩

          · refine (mem_drop_swapRemove tp i Hn h x).mpr ⟨hx, ?_⟩
            intro hxe
            rw [hxe, hok'] at hh
            exact PollRes.noConfusion hh
          · have hxe : x ≠ tp.getD i 0 := by
              intro hxe
              rw [hxe, hok'] at hh
              exact PollRes.noConfusion hh
            rw [hhead_ne x hxe]
            exact hh
      obtain ⟨fs2, tp2, heq, hm2, hnd2, hlen2, hcap2, hblk2, hadv2, hfr2⟩ :=
        ihs.2 hB2
      refine ⟨fs2, tp2, ?_, ?_, hnd2, ?_, ?_, ?_, ?_, ?_⟩
      · rw [scanFrom]
        simp only [dif_pos h]
        rw [hok]
        exact heq
      · intro x
        rw [hm2 x, swapRemove_take tp i h]
        by_cases hxe : x = tp.getD i 0
        · subst hxe
          constructor
          · rintro (hx | ⟨hx, hh⟩)
            · exact Or.inl hx
            · exact absurd ((mem_drop_swapRemove tp i Hn h _).mp hx).2 (by simp)
          · rintro (hx | ⟨hx, hh⟩)
            · exact Or.inl hx
            · rw [hok'] at hh
              exact PollRes.noConfusion hh
        · constructor
          · rintro (hx | ⟨hx, hh⟩)
            · exact Or.inl hx
            · exact Or.inr ⟨((mem_drop_swapRemove tp i Hn h x).mp hx).1,
                by rw [← hhead_ne x hxe]; exact hh⟩
          · rintro (hx | ⟨hx, hh⟩)
            · exact Or.inl hx
            · exact Or.inr ⟨(mem_drop_swapRemove tp i Hn h x).mpr ⟨hx, hxe⟩,
                by rw [hhead_ne x hxe]; exact hh⟩
      · rw [hlen2, hlen']
      · rw [hcap2]
      · rw [hblk2]
      · intro x hx
        by_cases hxe : x = tp.getD i 0
        · subst hxe
          have hnm : tp.getD i 0 ∉ (swapRemove tp i).drop i := by
            intro hc
            exact absurd ((mem_drop_swapRemove tp i Hn h _).mp hc).2 (by simp)
          rw [hfr2 _ hnm, hgd_self]
        · rw [hadv2 x ((mem_drop_swapRemove tp i Hn h x).mpr ⟨hx, hxe⟩),
            hgd_ne x hxe]
      · intro x hx
        have hxe : x ≠ tp.getD i 0 := fun hc => hx (by rw [hc]; exact hmemd)
        have hnm : x ∉ (swapRemove tp i).drop i := by
          intro hc
          exact hx ((mem_drop_swapRemove tp i Hn h x).mp hc).1
        rw [hfr2 _ hnm, hgd_ne x hxe]
  | case2 fs tp pending i h idx pr e herr =>
    intro Hb Hn He
    have herr' : headAt fs (tp.getD i 0) = .err e := herr
    exact absurd herr' (He _ (getD_mem_drop tp i h) e)
  | case3 fs tp pending i h idx pr fs' hpend ih =>
    intro Hb Hn He
    have hmemd : tp.getD i 0 ∈ tp.drop i := getD_mem_drop tp i h
    have hmem : tp.getD i 0 ∈ tp := List.mem_of_mem_drop hmemd
    have hlt : tp.getD i 0 < fs.data.length := Hb _ hmem
    have hpend' : headAt fs (tp.getD i 0) = .pend := hpend
    have hdata' : fs'.data = fs.data.set (tp.getD i 0) pr.2 := rfl
    have hlen' : fs'.data.length = fs.data.length := by
      rw [hdata', List.length_set]
    have hgd_self : fs'.data.getD (tp.getD i 0) default
        = (fs.data.getD (tp.getD i 0) default).afterPoll := by
      rw [hdata', getD_set_self _ _ hlt]
      rfl
    have hgd_ne : ∀ x, x ≠ tp.getD i 0 →
        fs'.data.getD x default = fs.data.getD x default := by
      intro x hne
      rw [hdata', getD_set_ne _ (fun hh => hne hh.symm)]
    have hhead_ne : ∀ x, x ≠ tp.getD i 0 → headAt fs' x = headAt fs x := by
      intro x hne
      unfold headAt
      rw [hgd_ne x hne]
    have hnotmem : tp.getD i 0 ∉ tp.drop (i + 1) := getD_not_mem_drop_succ tp i Hn h
    have Hb2 : ∀ x ∈ tp, x < fs'.data.length := by
      intro x hx
      rw [hlen']
      exact Hb x hx
    have He2 : ∀ x ∈ tp.drop (i + 1), ∀ e, headAt fs' x ≠ .err e := by
      intro x hx e
      have hxe : x ≠ tp.getD i 0 := fun hc => hnotmem (hc ▸ hx)
      rw [hhead_ne x hxe]
      exact He x ((mem_drop_succ_iff tp i h x).mpr (Or.inr hx)) e
    have ihs := ih Hb2 Hn He2
    obtain ⟨fs2, tp2, heq, hm2, hnd2, hlen2, hcap2, hblk2, hadv2, hfr2⟩ :=
      ihs.2 (Or.inl rfl)
    constructor
    · rintro ⟨hpf, hall⟩
      have := hall _ hmemd
      rw [hpend'] at this
      exact absurd this (by simp)
    · intro hB
      refine ⟨fs2, tp2, ?_, ?_, hnd2, ?_, ?_, ?_, ?_, ?_⟩
      · rw [scanFrom]
        simp only [dif_pos h]
        rw [hpend]
        exact heq
      · intro x
        rw [hm2 x]
        by_cases hxe : x = tp.getD i 0
        · subst hxe
          constructor
          · rintro (hx | ⟨hx, hh⟩)
            · rcases (mem_take_succ_iff tp i h _).mp hx with hx | hx
              · exact Or.inl hx
              · exact Or.inr ⟨hmemd, hpend'⟩
            · exact absurd hx hnotmem
          · rintro (hx | ⟨hx, hh⟩)
            · exact Or.inl ((mem_take_succ_iff tp i h _).mpr (Or.inl hx))
            · exact Or.inl ((mem_take_succ_iff tp i h _).mpr (Or.inr rfl))
        · constructor
          · rintro (hx | ⟨hx, hh⟩)
            · rcases (mem_take_succ_iff tp i h _).mp hx with hx | hx
              · exact Or.inl hx
              · exact absurd hx hxe
            · exact Or.inr ⟨(mem_drop_succ_iff tp i h x).mpr (Or.inr hx),
                by rw [← hhead_ne x hxe]; exact hh⟩
          · rintro (hx | ⟨hx, hh⟩)
            · exact Or.inl ((mem_take_succ_iff tp i h _).mpr (Or.inl hx))
            · rcases (mem_drop_succ_iff tp i h x).mp hx with hc | hc
              · exact absurd hc hxe
              · exact Or.inr ⟨hc, by rw [hhead_ne x hxe]; exact hh⟩
      · rw [hlen2, hlen']
      · rw [hcap2]
      · rw [hblk2]
      · intro x hx
        by_cases hxe : x = tp.getD i 0
        · subst hxe
          rw [hfr2 _ hnotmem, hgd_self]
        · have hx1 : x ∈ tp.drop (i + 1) := by
            rcases (mem_drop_succ_iff tp i h x).mp hx with hc | hc
            · exact absurd hc hxe
            · exact hc
          rw [hadv2 x hx1, hgd_ne x hxe]
      · intro x hx
        have hxe : x ≠ tp.getD i 0 := fun hc => hx (by rw [hc]; exact hmemd)
        have hnm : x ∉ tp.drop (i + 1) := by
          intro hc
          exact hx ((mem_drop_succ_iff tp i h x).mpr (Or.inr hc))
        rw [hfr2 _ hnm, hgd_ne x hxe]
  | case4 fs tp i h =>
    intro Hb Hn He
    have hdrop : tp.drop i = [] := List.drop_eq_nil_of_le (by omega)
    have htake : tp.take i = tp := List.take_of_length_le (by omega)
    constructor
    · rintro ⟨hpf, _⟩
      exact absurd hpf (by simp)
    · intro hB
      refine ⟨fs, tp, ?_, ?_, Hn, rfl, rfl, rfl, ?_, ?_⟩
      · rw [scanFrom]
        simp [h]
      · intro x
        rw [hdrop, htake]
        simp
      · intro x hx
        rw [hdrop] at hx
        exact absurd hx (by simp)
      · intro x hx
        rfl
  | case5 fs tp pending i h hnp =>
    intro Hb Hn He
    have hdrop : tp.drop i = [] := List.drop_eq_nil_of_le (by omega)
    constructor
    · rintro ⟨hpf, _⟩
      rw [scanFrom]
      simp only [dif_neg h]
      have : pending = false := by
        cases pending
        · rfl
        · exact absurd rfl hnp
      rw [this]
      simp
    · intro hB
      rcases hB with hp | ⟨x, hx, _⟩
      · exact absurd hp hnp
      · rw [hdrop] at hx
        exact absurd hx (by simp)

/-! ### The error (fail-fast) case of the scan -/

theorem scanFrom_err_imm (fs : TVec (Fut ε)) (tp : List Nat) (pending : Bool)
    (i : Nat) (e : ε) (h : i < tp.length)
    (hh : headAt fs (tp.getD i 0) = .err e) :
    scanFrom fs tp pending i
      = (.ready (.error e), ⟨[], fs.cap, fs.blk⟩, ([] : List Nat)) := by
  have hh' : (fs.data.getD (tp.getD i 0) default).poll.1 = PollRes.err e := hh
  rw [scanFrom]
  simp only [dif_pos h]
  rw [hh']

theorem scanFrom_err_spec (fs : TVec (Fut ε)) (tp : List Nat) (pending : Bool)
    (i : Nat) :
    (∀ idx ∈ tp, idx < fs.data.length) → tp.Nodup →
    (∃ idx ∈ tp.drop i, ∃ e, headAt fs idx = .err e) →
    ∃ e, (∃ idx ∈ tp.drop i, headAt fs idx = .err e)
      ∧ scanFrom fs tp pending i
          = (.ready (.error e), ⟨[], fs.cap, fs.blk⟩, ([] : List Nat)) := by
  induction fs, tp, pending, i using scanFrom.induct with
  | case1 fs tp pending i h idx pr fs' hok ih =>
    intro Hb Hn Hex
    have hok' : headAt fs (tp.getD i 0) = .ok := hok
    have hdata' : fs'.data = fs.data.set (tp.getD i 0) pr.2 := rfl
    have hgd_ne : ∀ x, x ≠ tp.getD i 0 →
        fs'.data.getD x default = fs.data.getD x default := by
      intro x hne
      rw [hdata', getD_set_ne _ (fun hh => hne hh.symm)]
    have hhead_ne : ∀ x, x ≠ tp.getD i 0 → headAt fs' x = headAt fs x := by
      intro x hne
      unfold headAt
      rw [hgd_ne x hne]
    obtain ⟨x, hx, e, he⟩ := Hex
    have hxe : x ≠ tp.getD i 0 := by
      intro hc
      rw [hc, hok'] at he
      exact PollRes.noConfusion he
    have Hb2 : ∀ y ∈ swapRemove tp i, y < fs'.data.length := by
      intro y hy
      have : fs'.data.length = fs.data.length := by
        rw [hdata', List.length_set]
      rw [this]
      exact Hb y ((mem_swapRemove tp i Hn h y).mp hy).1
    have Hn2 : (swapRemove tp i).Nodup := swapRemove_nodup tp i h Hn
    have Hex2 : ∃ y ∈ (swapRemove tp i).drop i, ∃ e2, headAt fs' y = .err e2 :=
      ⟨x, (mem_drop_swapRemove tp i Hn h x).mpr ⟨hx, hxe⟩, e,
        by rw [hhead_ne x hxe]; exact he⟩
    obtain ⟨e2, ⟨y, hy, hey⟩, heq⟩ := ih Hb2 Hn2 Hex2
    have hy' := (mem_drop_swapRemove tp i Hn h y).mp hy
    refine ⟨e2, ⟨y, hy'.1, by rw [← hhead_ne y hy'.2]; exact hey⟩, ?_⟩
    rw [scanFrom]
    simp only [dif_pos h]
    rw [hok]
    exact heq
  | case2 fs tp pending i h idx pr e herr =>
    intro Hb Hn Hex
    have herr' : headAt fs (tp.getD i 0) = .err e := herr
    refine ⟨e, ⟨tp.getD i 0, getD_mem_drop tp i h, herr'⟩, ?_⟩
    rw [scanFrom]
    simp only [dif_pos h]
    rw [herr]
  | case3 fs tp pending i h idx pr fs' hpend ih =>
    intro Hb Hn Hex
    have hpend' : headAt fs (tp.getD i 0) = .pend := hpend
    have hdata' : fs'.data = fs.data.set (tp.getD i 0) pr.2 := rfl
    have hgd_ne : ∀ x, x ≠ tp.getD i 0 →
        fs'.data.getD x default = fs.data.getD x default := by
      intro x hne
      rw [hdata', getD_set_ne _ (fun hh => hne hh.symm)]
    have hhead_ne : ∀ x, x ≠ tp.getD i 0 → headAt fs' x = headAt fs x := by
      intro x hne
      unfold headAt
      rw [hgd_ne x hne]
    obtain ⟨x, hx, e, he⟩ := Hex
    have hxe : x ≠ tp.getD i 0 := by
      intro hc
      rw [hc, hpend'] at he
      exact PollRes.noConfusion he
    have hx1 : x ∈ tp.drop (i + 1) := by
      rcases (mem_drop_succ_iff tp i h x).mp hx with hc | hc
      · exact absurd hc hxe
      · exact hc
    have Hb2 : ∀ y ∈ tp, y < fs'.data.length := by
      intro y hy
      have : fs'.data.length = fs.data.length := by
        rw [hdata', List.length_set]
      rw [this]
      exact Hb y hy
    have Hex2 : ∃ y ∈ tp.drop (i + 1), ∃ e2, headAt fs' y = .err e2 :=
      ⟨x, hx1, e, by rw [hhead_ne x hxe]; exact he⟩
    obtain ⟨e2, ⟨y, hy, hey⟩, heq⟩ := ih Hb2 Hn Hex2
    have hye : y ≠ tp.getD i 0 := by
      intro hc
      exact getD_not_mem_drop_succ tp i Hn h (hc ▸ hy)
    refine ⟨e2, ⟨y, (mem_drop_succ_iff tp i h y).mpr (Or.inr hy),
      by rw [← hhead_ne y hye]; exact hey⟩, ?_⟩
    rw [scanFrom]
    simp only [dif_pos h]
    rw [hpend]
    exact heq
  | case4 fs tp i h =>
    intro Hb Hn Hex
    obtain ⟨x, hx, _⟩ := Hex
    rw [List.drop_eq_nil_of_le (by omega)] at hx
    exact absurd hx (by simp)
  | case5 fs tp pending i h hnp =>
    intro Hb Hn Hex
    obtain ⟨x, hx, _⟩ := Hex
    rw [List.drop_eq_nil_of_le (by omega)] at hx
    exact absurd hx (by simp)

/-! ### Frame property of pending scans -/

theorem scanFrom_pending_frame (fs : TVec (Fut ε)) (tp : List Nat)
    (pending : Bool) (i : Nat) :
    tp.Nodup →
    ∀ fs2 tp2, scanFrom fs tp pending i = (.pending, fs2, tp2) →
      (∀ x, x ∉ tp.drop i → fs2.data.getD x default = fs.data.getD x default)
      ∧ (∀ x ∈ tp2, x ∈ tp) ∧ tp2.Nodup := by
  induction fs, tp, pending, i using scanFrom.induct with
  | case1 fs tp pending i h idx pr fs' hok ih =>
    intro Hn fs2 tp2 heq
    rw [scanFrom] at heq
    simp only [dif_pos h] at heq
    rw [hok] at heq
    have hdata' : fs'.data = fs.data.set (tp.getD i 0) pr.2 := rfl
    have hgd_ne : ∀ x, x ≠ tp.getD i 0 →
        fs'.data.getD x default = fs.data.getD x default := by
      intro x hne
      rw [hdata', getD_set_ne _ (fun hh => hne hh.symm)]
    obtain ⟨f2, m2, n2⟩ := ih (swapRemove_nodup tp i h Hn) fs2 tp2 heq
    refine ⟨?_, ?_, n2⟩
    · intro x hx
      have hxe : x ≠ tp.getD i 0 := fun hc => hx (hc ▸ getD_mem_drop tp i h)
      have hnm : x ∉ (swapRemove tp i).drop i := by
        intro hc
        exact hx ((mem_drop_swapRemove tp i Hn h x).mp hc).1
      rw [f2 x hnm, hgd_ne x hxe]
    · intro x hx
      exact ((mem_swapRemove tp i Hn h x).mp (m2 x hx)).1
  | case2 fs tp pending i h idx pr e herr =>
    intro Hn fs2 tp2 heq
    rw [scanFrom] at heq
    simp only [dif_pos h] at heq
    rw [herr] at heq
    exact absurd heq (by simp)
  | case3 fs tp pending i h idx pr fs' hpend ih =>
    intro Hn fs2 tp2 heq
    rw [scanFrom] at heq
    simp only [dif_pos h] at heq
    rw [hpend] at heq
    have hdata' : fs'.data = fs.data.set (tp.getD i 0) pr.2 := rfl
    have hgd_ne : ∀ x, x ≠ tp.getD i 0 →
        fs'.data.getD x default = fs.data.getD x default := by
      intro x hne
      rw [hdata', getD_set_ne _ (fun hh => hne hh.symm)]
    obtain ⟨f2, m2, n2⟩ := ih Hn fs2 tp2 heq
    refine ⟨?_, m2, n2⟩
    intro x hx
    have hxe : x ≠ tp.getD i 0 := fun hc => hx (hc ▸ getD_mem_drop tp i h)
    have hnm : x ∉ tp.drop (i + 1) := by
      intro hc
      exact hx ((mem_drop_succ_iff tp i h x).mpr (Or.inr hc))
    rw [f2 x hnm, hgd_ne x hxe]
  | case4 fs tp i h =>
    intro Hn fs2 tp2 heq
    rw [scanFrom] at heq
    simp only [dif_neg h, if_true] at heq
    rw [Prod.mk.injEq, Prod.mk.injEq] at heq
    obtain ⟨-, h1, h2⟩ := heq
    subst h1
    subst h2
    exact ⟨fun x hx => rfl, fun x hx => hx, Hn⟩
  | case5 fs tp pending i h hnp =>
    intro Hn fs2 tp2 heq
    rw [scanFrom] at heq
    have hpf : pending = false := by
      cases pending
      · rfl
      · exact absurd rfl hnp
    subst hpf
    simp only [dif_neg h] at heq
    exact absurd heq (by simp)

theorem drive_pending_frame (fuel : Nat) (fs : TVec (Fut ε)) (tp : List Nat) :
    tp.Nodup →
    ∀ fs2 tp2, drive fuel fs tp = (none, fs2, tp2) →
      (∀ x, x ∉ tp → fs2.data.getD x default = fs.data.getD x default)
      ∧ (∀ x ∈ tp2, x ∈ tp) ∧ tp2.Nodup := by
  induction fuel generalizing fs tp with
  | zero =>
    intro Hn fs2 tp2 heq
    unfold drive at heq
    simp only [Prod.mk.injEq] at heq
    obtain ⟨-, h1, h2⟩ := heq
    subst h1
    subst h2
    exact ⟨fun x hx => rfl, fun x hx => hx, Hn⟩
  | succ fuel ih =>
    intro Hn fs2 tp2 heq
    unfold drive at heq
    rcases hp : pollMerger fs tp with ⟨r, fs3, tp3⟩
    rw [hp] at heq
    cases r with
    | ready r0 => exact absurd heq (by simp)
    | pending =>
      have hframe := scanFrom_pending_frame fs tp false 0 Hn fs3 tp3 hp
      obtain ⟨f1, m1, n1⟩ := hframe
      obtain ⟨f2, m2, n2⟩ := ih fs3 tp3 n1 fs2 tp2 heq
      refine ⟨?_, ?_, n2⟩
      · intro x hx
        have hx3 : x ∉ tp3 := fun hc => hx (m1 x hc)
        rw [f2 x hx3, f1 x (by rw [List.drop_zero]; exact hx)]
      · intro x hx
        exact m1 x (m2 x hx)

/-! ### Liveness: all operations eventually succeeding resolves the handle -/

theorem succeedsIn_not_err {f : Fut ε} {n : Nat} (h : SucceedsIn f n) (e : ε) :
    f.headRes ≠ .err e := by
  cases n with
  | zero =>
    have h0 : f.headRes = .ok := h
    rw [h0]
    simp
  | succ n =>
    have h1 : f.headRes = .pend ∧ SucceedsIn f.afterPoll n := h
    rw [h1.1]
    simp

theorem drive_resolves (N : Nat) :
    ∀ (fs : TVec (Fut ε)) (tp : List Nat),
    (∀ idx ∈ tp, idx < fs.data.length) → tp.Nodup →
    (∀ idx ∈ tp, ∃ n ≤ N, SucceedsIn (fs.data.getD idx default) n) →
    drive (N + 1) fs tp
      = (some (.ok ()), ⟨[], fs.cap, fs.blk⟩, ([] : List Nat)) := by
  induction N with
  | zero =>
    intro fs tp Hb Hn Hs
    have hall : ∀ idx ∈ tp.drop 0, headAt fs idx = .ok := by
      intro idx hidx
      rw [List.drop_zero] at hidx
      obtain ⟨n, hn, hsuc⟩ := Hs idx hidx
      have hn0 : n = 0 := by omega
      subst hn0
      exact hsuc
    have He : ∀ idx ∈ tp.drop 0, ∀ e, headAt fs idx ≠ .err e := by
      intro idx hidx e
      rw [hall idx hidx]
      simp
    have hp : pollMerger fs tp
        = (.ready (.ok ()), ⟨[], fs.cap, fs.blk⟩, ([] : List Nat)) :=
      (scanFrom_spec fs tp false 0 Hb Hn He).1 ⟨rfl, hall⟩
    show (match pollMerger fs tp with
      | (.ready r, fs2, tp2) => (some r, fs2, tp2)
      | (.pending, fs2, tp2) => drive 0 fs2 tp2)
      = (some (.ok ()), ⟨[], fs.cap, fs.blk⟩, ([] : List Nat))
    rw [hp]
  | succ N ih =>
    intro fs tp Hb Hn Hs
    have He : ∀ idx ∈ tp.drop 0, ∀ e, headAt fs idx ≠ .err e := by
      intro idx hidx e
      rw [List.drop_zero] at hidx
      obtain ⟨n, _, hsuc⟩ := Hs idx hidx
      exact succeedsIn_not_err hsuc e
    by_cases hall : ∀ idx ∈ tp.drop 0, headAt fs idx = .ok
    · have hp : pollMerger fs tp
          = (.ready (.ok ()), ⟨[], fs.cap, fs.blk⟩, ([] : List Nat)) :=
        (scanFrom_spec fs tp false 0 Hb Hn He).1 ⟨rfl, hall⟩
      show (match pollMerger fs tp with
        | (.ready r, fs2, tp2) => (some r, fs2, tp2)
        | (.pending, fs2, tp2) => drive (N + 1) fs2 tp2)
        = (some (.ok ()), ⟨[], fs.cap, fs.blk⟩, ([] : List Nat))
      rw [hp]
    · push_neg at hall
      obtain ⟨x, hx, hne⟩ := hall
      rw [List.drop_zero] at hx
      have hpendx : headAt fs x = .pend := by
        obtain ⟨n, hn, hsuc⟩ := Hs x hx
        cases n with
        | zero => exact absurd (show headAt fs x = .ok from hsuc) hne
        | succ n =>
          exact (show (fs.data.getD x default).headRes = .pend
            ∧ SucceedsIn (fs.data.getD x default).afterPoll n from hsuc).1
      obtain ⟨fs2, tp2, heq, hm, hnd, hlen, hcap, hblk, hadv, hfr⟩ :=
        (scanFrom_spec fs tp false 0 Hb Hn He).2
          (Or.inr ⟨x, by rw [List.drop_zero]; exact hx, hpendx⟩)
      have Hb2 : ∀ idx ∈ tp2, idx < fs2.data.length := by
        intro idx hidx
        rw [hlen]
        rcases (hm idx).mp hidx with hc | ⟨hc, _⟩
        · exact absurd hc (by simp)
        · exact Hb idx (List.mem_of_mem_drop hc)
      have Hs2 : ∀ idx ∈ tp2, ∃ n ≤ N, SucceedsIn (fs2.data.getD idx default) n := by
        intro idx hidx
        rcases (hm idx).mp hidx with hc | ⟨hc, hpd⟩
        · exact absurd hc (by simp)
        · rw [List.drop_zero] at hc
          obtain ⟨n, hnle, hsuc⟩ := Hs idx hc
          cases n with
          | zero =>
            have : headAt fs idx = .ok := hsuc
            rw [this] at hpd
            exact absurd hpd (by simp)
          | succ n =>
            have hsucc : (fs.data.getD idx default).headRes = .pend
                ∧ SucceedsIn (fs.data.getD idx default).afterPoll n := hsuc
            refine ⟨n, by omega, ?_⟩
            rw [hadv idx (by rw [List.drop_zero]; exact hc)]
            exact hsucc.2
      have hdrive2 := ih fs2 tp2 Hb2 hnd Hs2
      have hp : pollMerger fs tp = (.pending, fs2, tp2) := heq
      show (match pollMerger fs tp with
        | (.ready r, fs3, tp3) => (some r, fs3, tp3)
        | (.pending, fs3, tp3) => drive (N + 1) fs3 tp3)
        = (some (.ok ()), ⟨[], fs.cap, fs.blk⟩, ([] : List Nat))
      rw [hp]
      show drive (N + 1) fs2 tp2
        = (some (.ok ()), ⟨[], fs.cap, fs.blk⟩, ([] : List Nat))
      rw [hdrive2, hcap, hblk]

/-! ### Scans never touch the backing allocation -/

theorem scanFrom_cap_blk (fs : TVec (Fut ε)) (tp : List Nat) (pending : Bool)
    (i : Nat) :
    (scanFrom fs tp pending i).2.1.cap = fs.cap ∧
      (scanFrom fs tp pending i).2.1.blk = fs.blk := by
  induction fs, tp, pending, i using scanFrom.induct with
  | case1 fs tp pending i h idx pr fs' hok ih =>
    rw [scanFrom]
    simp only [dif_pos h]
    rw [hok]
    exact ih
  | case2 fs tp pending i h idx pr e herr =>
    rw [scanFrom]
    simp only [dif_pos h]
    rw [herr]
    exact ⟨rfl, rfl⟩
  | case3 fs tp pending i h idx pr fs' hpend ih =>
    rw [scanFrom]
    simp only [dif_pos h]
    rw [hpend]
    exact ih
  | case4 fs tp i h =>
    rw [scanFrom]
    simp [h]
  | case5 fs tp pending i h hnp =>
    rw [scanFrom]
    simp [h, hnp]

/-! ### Session-level helpers: push, borrow, drop -/

theorem push_data (v : TVec φ) (x : φ) (fresh : Nat) :
    (v.push x fresh).1.data = v.data ++ [x] := by
  unfold TVec.push
  split <;> rfl

theorem push_no_grow (v : TVec φ) (x : φ) (fresh : Nat)
    (h : v.data.length < v.cap) :
    v.push x fresh = ({ v with data := v.data ++ [x] }, fresh) := by
  unfold TVec.push
  rw [if_pos h]

theorem pushAll_spec (ops : List (Fut ε)) :
    ∀ (m : FuturesMergerMemoryOwner) (v : TVec (Fut ε)) (fresh : Nat),
    (pushAll m v ops fresh).1.to_poll
        = m.to_poll ++ List.range' v.data.length ops.length
    ∧ (pushAll m v ops fresh).1.data = m.data
    ∧ (pushAll m v ops fresh).1.capacity = m.capacity
    ∧ (pushAll m v ops fresh).1.layout = m.layout
    ∧ (pushAll m v ops fresh).1.drop_fn = m.drop_fn
    ∧ (pushAll m v ops fresh).2.1.data = v.data ++ ops := by
  induction ops with
  | nil =>
    intro m v fresh
    simp [pushAll]
  | cons f rest ih =>
    intro m v fresh
    have hdata : (v.push f fresh).1.data = v.data ++ [f] := push_data v f fresh
    have hlen : (v.push f fresh).1.data.length - 1 = v.data.length := by
      rw [hdata]
      simp
    unfold pushAll mergerPush
    obtain ⟨h1, h2, h3, h4, h5, h6⟩ := ih
      { m with to_poll := m.to_poll ++ [(v.push f fresh).1.data.length - 1] }
      (v.push f fresh).1 (v.push f fresh).2
    refine ⟨?_, h2, h3, h4, h5, ?_⟩
    · rw [h1, hlen, hdata]
      simp [List.range'_succ, List.append_assoc]
    · rw [h6, hdata, List.append_assoc]
      rfl

theorem pushAll_no_alloc (ops : List (Fut ε)) :
    ∀ (m : FuturesMergerMemoryOwner) (v : TVec (Fut ε)) (fresh : Nat),
    v.data.length + ops.length ≤ v.cap →
    (pushAll m v ops fresh).2.1.cap = v.cap
    ∧ (pushAll m v ops fresh).2.1.blk = v.blk
    ∧ (pushAll m v ops fresh).2.2 = fresh := by
  induction ops with
  | nil =>
    intro m v fresh hle
    exact ⟨rfl, rfl, rfl⟩
  | cons f rest ih =>
    intro m v fresh hle
    have hlt : v.data.length < v.cap := by
      simp only [List.length_cons] at hle
      omega
    have hpush := push_no_grow v f fresh hlt
    unfold pushAll mergerPush
    rw [hpush]
    have hlen2 : ({ v with data := v.data ++ [f] } : TVec (Fut ε)).data.length
        + rest.length ≤ ({ v with data := v.data ++ [f] } : TVec (Fut ε)).cap := by
      simp only [List.length_append, List.length_cons, List.length_nil]
      simp only [List.length_cons] at hle
      omega
    exact ih _ _ fresh hlen2

theorem borrow_ok_some (fL : Nat × Nat) (m : FuturesMergerMemoryOwner)
    (p : Nat) (hlay : m.layout = none ∨ m.layout = some fL)
    (hd : m.data = some p) :
    FuturesMergerMemoryOwner.borrow (ε := ε) fL m
      = (.ok ⟨[], m.capacity, some p⟩, { m with data := none }) := by
  unfold FuturesMergerMemoryOwner.borrow
  rcases hlay with hlay | hlay <;> rw [hlay, hd]
  simp

theorem borrow_ok_none (fL : Nat × Nat) (m : FuturesMergerMemoryOwner)
    (hlay : m.layout = none ∨ m.layout = some fL) (hd : m.data = none) :
    FuturesMergerMemoryOwner.borrow (ε := ε) fL m
      = (.ok ⟨[], 0, none⟩, { m with data := none }) := by
  unfold FuturesMergerMemoryOwner.borrow
  rcases hlay with hlay | hlay <;> rw [hlay, hd]
  simp

theorem mergerDrop_cap_zero (fL : Nat × Nat) (m : FuturesMergerMemoryOwner)
    (v : TVec (Fut ε)) (h : v.cap = 0) :
    mergerDrop fL m v = { m with to_poll := [] } := by
  unfold mergerDrop
  rw [if_pos h]

theorem mergerDrop_first (fL : Nat × Nat) (m : FuturesMergerMemoryOwner)
    (v : TVec (Fut ε)) (h1 : m.drop_fn = none) (h2 : v.cap ≠ 0) :
    mergerDrop fL m v = ⟨v.blk, v.cap, [], some fL, some fL⟩ := by
  unfold mergerDrop
  rw [if_neg h2, if_pos h1]

theorem mergerDrop_later (fL : Nat × Nat) (m : FuturesMergerMemoryOwner)
    (v : TVec (Fut ε)) (d : Nat × Nat) (h1 : m.drop_fn = some d)
    (h2 : v.cap ≠ 0) :
    mergerDrop fL m v = ⟨v.blk, v.cap, [], m.layout, some d⟩ := by
  unfold mergerDrop
  rw [if_neg h2, if_neg (by rw [h1]; simp), h1]

theorem mergerDrop_congr (fL : Nat × Nat) (m : FuturesMergerMemoryOwner)
    (v1 v2 : TVec (Fut ε)) (hc : v1.cap = v2.cap) (hb : v1.blk = v2.blk) :
    mergerDrop fL m v1 = mergerDrop fL m v2 := by
  unfold mergerDrop
  rw [hc, hb]

theorem iteration_reuse (fL : Nat × Nat) (m : FuturesMergerMemoryOwner)
    (p c : Nat) (ops : List (Fut ε)) (fresh : Nat)
    (hd : m.data = some p) (hcap : m.capacity = c) (hc : 0 < c)
    (hlay : m.layout = none ∨ m.layout = some fL) (hlen : ops.length ≤ c) :
    ∃ m2, iteration fL ops m fresh = .ok (m2, fresh)
      ∧ m2.data = some p ∧ m2.capacity = c
      ∧ (m2.layout = none ∨ m2.layout = some fL) := by
  set st := pushAll (ε := ε) { m with data := none }
    ⟨[], m.capacity, some p⟩ ops fresh with hst
  have hiter : iteration fL ops m fresh
      = .ok (mergerDrop fL st.1 st.2.1, st.2.2) := by
    unfold iteration
    rw [borrow_ok_some fL m p hlay hd]
  have hna := pushAll_no_alloc ops { m with data := none }
    ⟨[], m.capacity, some p⟩ fresh (by simp [hcap]; omega)
  obtain ⟨hcap2, hblk2, hfresh2⟩ := hna
  have hspec := pushAll_spec ops { m with data := none }
    ⟨[], m.capacity, some p⟩ fresh
  obtain ⟨-, -, -, hlay2, hdf2, -⟩ := hspec
  have hcapne : st.2.1.cap ≠ 0 := by
    rw [hcap2]
    simp
    omega
  rcases hdfc : st.1.drop_fn with hdf | d
  · refine ⟨⟨some p, c, [], some fL, some fL⟩, ?_, rfl, rfl, Or.inr rfl⟩
    rw [hiter, mergerDrop_first fL st.1 st.2.1 hdfc hcapne, hfresh2, hcap2,
      hblk2]
    simp [hcap]
  · refine ⟨⟨some p, c, [], m.layout, some d⟩, ?_, rfl, rfl, ?_⟩
    · rw [hiter, mergerDrop_later fL st.1 st.2.1 d hdfc hcapne, hfresh2, hcap2,
        hblk2, hlay2]
      simp [hcap]
    · exact hlay

theorem iterate_reuse (fL : Nat × Nat) (batches : List (List (Fut ε))) :
    ∀ (m : FuturesMergerMemoryOwner) (p c fresh : Nat),
    m.data = some p → m.capacity = c → 0 < c →
    (m.layout = none ∨ m.layout = some fL) →
    (∀ b ∈ batches, b.length ≤ c) →
    ∃ m2, iterate fL batches m fresh = .ok (m2, fresh)
      ∧ m2.data = some p ∧ m2.capacity = c := by
  induction batches with
  | nil =>
    intro m p c fresh hd hcap hc hlay hb
    exact ⟨m, rfl, hd, hcap⟩
  | cons b bs ih =>
    intro m p c fresh hd hcap hc hlay hb
    obtain ⟨m2, heq, hd2, hcap2, hlay2⟩ :=
      iteration_reuse fL m p c b fresh hd hcap hc hlay
        (hb b (List.mem_cons_self b bs))
    obtain ⟨m3, heq3, hd3, hcap3⟩ := ih m2 p c fresh hd2 hcap2 hc hlay2
      (fun x hx => hb x (List.mem_cons_of_mem b hx))
    refine ⟨m3, ?_, hd3, hcap3⟩
    unfold iterate
    rw [heq]
    exact heq3

theorem borrow_err (fL : Nat × Nat) (m : FuturesMergerMemoryOwner)
    (l : Nat × Nat) (hl : m.layout = some l) (hne : l ≠ fL) :
    FuturesMergerMemoryOwner.borrow (ε := ε) fL m = (.error ⟨l, fL⟩, m) := by
  unfold FuturesMergerMemoryOwner.borrow
  simp only [hl]
  rw [if_pos hne]

theorem scanFrom_ready_clear (fs : TVec (Fut ε)) (tp : List Nat)
    (pending : Bool) (i : Nat) :
    ∀ r fs2 tp2, scanFrom fs tp pending i = (.ready r, fs2, tp2) →
      fs2.data = [] ∧ tp2 = [] := by
  induction fs, tp, pending, i using scanFrom.induct with
  | case1 fs tp pending i h idx pr fs' hok ih =>
    intro r fs2 tp2 heq
    rw [scanFrom] at heq
    simp only [dif_pos h] at heq
    rw [hok] at heq
    exact ih r fs2 tp2 heq
  | case2 fs tp pending i h idx pr e herr =>
    intro r fs2 tp2 heq
    rw [scanFrom] at heq
    simp only [dif_pos h] at heq
    rw [herr] at heq
    rw [Prod.mk.injEq, Prod.mk.injEq] at heq
    obtain ⟨-, h1, h2⟩ := heq
    subst h1
    subst h2
    exact ⟨rfl, rfl⟩
  | case3 fs tp pending i h idx pr fs' hpend ih =>
    intro r fs2 tp2 heq
    rw [scanFrom] at heq
    simp only [dif_pos h] at heq
    rw [hpend] at heq
    exact ih r fs2 tp2 heq
  | case4 fs tp i h =>
    intro r fs2 tp2 heq
    rw [scanFrom] at heq
    simp only [dif_neg h, if_true] at heq
    exact absurd heq (by simp)
  | case5 fs tp pending i h hnp =>
    intro r fs2 tp2 heq
    rw [scanFrom] at heq
    have hpf : pending = false := by
      cases pending
      · rfl
      · exact absurd rfl hnp
    subst hpf
    simp only [dif_neg h, if_false, Bool.false_eq_true] at heq
    rw [Prod.mk.injEq, Prod.mk.injEq] at heq
    obtain ⟨-, h1, h2⟩ := heq
    subst h1
    subst h2
    exact ⟨rfl, rfl⟩

/-! ### The claims -/

/-- Claim C1: `FuturesMergerMemoryOwner::borrow` with a future type of
layout `fL` fails with a `WrongLayoutError` carrying the recorded and the
new layout iff a layout was previously recorded and differs from `fL`;
on that failure the owner's fields are all left unchanged. -/
theorem claim_C1 (ε : Type) (fL : Nat × Nat) (m : FuturesMergerMemoryOwner) :
    ((∃ e, (FuturesMergerMemoryOwner.borrow (ε := ε) fL m).1 = .error e)
      ↔ ∃ l, m.layout = some l ∧ l ≠ fL)
    ∧ (∀ e, (FuturesMergerMemoryOwner.borrow (ε := ε) fL m).1 = .error e →
        (∃ l, m.layout = some l ∧ l ≠ fL ∧ e = ⟨l, fL⟩)
        ∧ (FuturesMergerMemoryOwner.borrow (ε := ε) fL m).2 = m) := by
  cases hl : m.layout with
  | none =>
    have hok : ∀ e, (FuturesMergerMemoryOwner.borrow (ε := ε) fL m).1
        ≠ .error e := by
      cases hd : m.data with
      | none =>
        rw [borrow_ok_none fL m (Or.inl hl) hd]
        intro e
        simp
      | some p =>
        rw [borrow_ok_some fL m p (Or.inl hl) hd]
        intro e
        simp
    constructor
    · constructor
      · rintro ⟨e, he⟩
        exact absurd he (hok e)
      · rintro ⟨l, hsome, -⟩
        exact absurd hsome (by simp)
    · intro e he
      exact absurd he (hok e)
  | some l =>
    by_cases hfl : l = fL
    · have hl' : m.layout = some fL := by rw [hl, hfl]
      have hok : ∀ e, (FuturesMergerMemoryOwner.borrow (ε := ε) fL m).1
          ≠ .error e := by
        cases hd : m.data with
        | none =>
          rw [borrow_ok_none fL m (Or.inr hl') hd]
          intro e
          simp
        | some p =>
          rw [borrow_ok_some fL m p (Or.inr hl') hd]
          intro e
          simp
      constructor
      · constructor
        · rintro ⟨e, he⟩
          exact absurd he (hok e)
        · rintro ⟨l', hsome, hne⟩
          injection hsome with h
          subst h
          exact absurd hfl hne
      · intro e he
        exact absurd he (hok e)
    · rw [borrow_err fL m l hl hfl]
      constructor
      · constructor
        · intro _
          exact ⟨l, rfl, hfl⟩
        · intro _
          exact ⟨⟨l, fL⟩, rfl⟩
      · intro e he
        simp only [Except.error.injEq] at he
        exact ⟨⟨l, rfl, hfl, he.symm⟩, rfl⟩

/-- Witness for C1 at a concrete input: a cell that recorded layout
`(8, 8)` refuses to bind a future type of layout `(4, 4)`. -/
theorem claim_C1_witness :
    ∃ e, (FuturesMergerMemoryOwner.borrow (ε := Unit) (4, 4)
      (⟨none, 0, [], some (8, 8), none⟩ : FuturesMergerMemoryOwner)).1
        = .error e :=
  (claim_C1 Unit (4, 4) ⟨none, 0, [], some (8, 8), none⟩).1.mpr
    ⟨(8, 8), rfl, by decide⟩

/-- Claim C2 (counterexample to the claim as stated): on a fresh cell, the
first session's bind succeeds, and dropping it with zero pushed operations
(capacity 0) leaves `recorded_layout` unset rather than setting it to the
operation type's layout. -/
theorem claim_C2_counterexample :
    (FuturesMergerMemoryOwner.borrow (ε := Unit) (8, 8)
        FuturesMergerMemoryOwner.default).1 = .ok ⟨[], 0, none⟩
    ∧ (FuturesMergerMemoryOwner.borrow (ε := Unit) (8, 8)
        FuturesMergerMemoryOwner.default).2 = FuturesMergerMemoryOwner.default
    ∧ mergerDrop (8, 8) FuturesMergerMemoryOwner.default
        (⟨[], 0, none⟩ : TVec (Fut Unit)) = FuturesMergerMemoryOwner.default
    ∧ (mergerDrop (8, 8) FuturesMergerMemoryOwner.default
        (⟨[], 0, none⟩ : TVec (Fut Unit))).layout ≠ some (8, 8) := by
  refine ⟨rfl, rfl, rfl, by decide⟩

/-- Claim C2 as amended: dropping the first session bound to a cell (no
recorded destructor) clears `to_poll`, and, provided the array's capacity
is nonzero (at least one push, or a reserve, happened), transfers the
block and capacity back and records the layout and the erased destructor;
with capacity zero the drop only clears `to_poll` and leaves every other
field of the cell unchanged. -/
theorem claim_C2 (ε : Type) (fL : Nat × Nat) (m : FuturesMergerMemoryOwner)
    (v : TVec (Fut ε)) :
    (m.drop_fn = none → v.cap ≠ 0 →
        mergerDrop fL m v = ⟨v.blk, v.cap, [], some fL, some fL⟩)
    ∧ (v.cap = 0 → mergerDrop fL m v = { m with to_poll := [] }) :=
  ⟨fun h1 h2 => mergerDrop_first fL m v h1 h2,
    fun h => mergerDrop_cap_zero fL m v h⟩

/-- Witness for the amended C2 at concrete inputs. -/
theorem claim_C2_witness :
    mergerDrop (8, 8) FuturesMergerMemoryOwner.default
        (⟨[], 2, some 0⟩ : TVec (Fut Unit))
      = ⟨some 0, 2, [], some (8, 8), some (8, 8)⟩
    ∧ mergerDrop (8, 8) FuturesMergerMemoryOwner.default
        (⟨[], 0, none⟩ : TVec (Fut Unit))
      = { FuturesMergerMemoryOwner.default with to_poll := [] } :=
  ⟨(claim_C2 Unit (8, 8) FuturesMergerMemoryOwner.default ⟨[], 2, some 0⟩).1
      rfl (by decide),
    (claim_C2 Unit (8, 8) FuturesMergerMemoryOwner.default ⟨[], 0, none⟩).2
      rfl⟩

/-- Claim C3: with no operation reporting failure, a poll of the handle
returns `Pending` iff some pending operation reported not-ready during the
scan, and resolves to `Ok(())` exactly at the poll in which every
remaining pending operation (in particular the last one) reports success;
a batch with an empty pending list resolves at the first poll without
suspending; and if every operation eventually succeeds (each within `N`
polls), driving the handle resolves it to `Ok(())`. -/
theorem claim_C3 (ε : Type) (fs : TVec (Fut ε)) (tp : List Nat) (N : Nat)
    (Hb : ∀ idx ∈ tp, idx < fs.data.length) (Hn : tp.Nodup) :
    (tp = [] → pollMerger fs tp
        = (.ready (.ok ()), ⟨[], fs.cap, fs.blk⟩, ([] : List Nat)))
    ∧ ((∀ idx ∈ tp, ∀ e, headAt fs idx ≠ .err e) →
        (((pollMerger fs tp).1 = .pending ↔ ∃ idx ∈ tp, headAt fs idx = .pend)
        ∧ ((pollMerger fs tp).1 = .ready (.ok ())
            ↔ ∀ idx ∈ tp, headAt fs idx = .ok)))
    ∧ ((∀ idx ∈ tp, ∃ n ≤ N, SucceedsIn (fs.data.getD idx default) n) →
        drive (N + 1) fs tp
          = (some (.ok ()), ⟨[], fs.cap, fs.blk⟩, ([] : List Nat))) := by
  refine ⟨?_, ?_, ?_⟩
  · intro htp
    subst htp
    exact (scanFrom_spec fs [] false 0 (by simp) (by simp) (by simp)).1
      ⟨rfl, by simp⟩
  · intro He
    have He0 : ∀ idx ∈ List.drop 0 tp, ∀ e, headAt fs idx ≠ .err e := by
      intro idx hidx e
      rw [List.drop_zero] at hidx
      exact He idx hidx e
    by_cases hall : ∀ idx ∈ tp, headAt fs idx = .ok
    · have hp : pollMerger fs tp
          = (.ready (.ok ()), ⟨[], fs.cap, fs.blk⟩, ([] : List Nat)) :=
        (scanFrom_spec fs tp false 0 Hb Hn He0).1
          ⟨rfl, by
            intro idx hidx
            rw [List.drop_zero] at hidx
            exact hall idx hidx⟩
      constructor
      · constructor
        · intro hcontr
          rw [hp] at hcontr
          exact absurd hcontr (by simp)
        · rintro ⟨idx, hidx, hpend⟩
          have := hall idx hidx
          rw [hpend] at this
          exact absurd this (by simp)
      · constructor
        · intro _
          exact hall
        · intro _
          rw [hp]
    · push_neg at hall
      obtain ⟨x, hx, hnx⟩ := hall
      have hpx : headAt fs x = .pend := by
        cases hh : headAt fs x with
        | pend => rfl
        | ok => exact absurd hh hnx
        | err e => exact absurd hh (He x hx e)
      obtain ⟨fs2, tp2, heq, -, -, -, -, -, -, -⟩ :=
        (scanFrom_spec fs tp false 0 Hb Hn He0).2
          (Or.inr ⟨x, by rw [List.drop_zero]; exact hx, hpx⟩)
      have hp : pollMerger fs tp = (.pending, fs2, tp2) := heq
      constructor
      · constructor
        · intro _
          exact ⟨x, hx, hpx⟩
        · intro _
          rw [hp]
      · constructor
        · intro hcontr
          rw [hp] at hcontr
          exact absurd hcontr (by simp)
        · intro hallok
          exact absurd (hallok x hx) hnx
  · intro Hs
    exact drive_resolves N fs tp Hb Hn Hs

/-- Witness for C3: a zero-operation batch resolves at the first poll, and
a single operation that pends once then succeeds resolves within two
polls. -/
theorem claim_C3_witness :
    pollMerger (ε := Unit) (⟨[], 4, some 7⟩ : TVec (Fut Unit)) []
        = (.ready (.ok ()), ⟨[], 4, some 7⟩, [])
    ∧ drive 2 (⟨[⟨[.pend, .ok], 0⟩], 1, some 3⟩ : TVec (Fut Unit)) [0]
        = (some (.ok ()), ⟨[], 1, some 3⟩, []) := by
  constructor
  · exact (claim_C3 Unit ⟨[], 4, some 7⟩ [] 0 (by simp) (by simp)).1 rfl
  · refine (claim_C3 Unit ⟨[⟨[.pend, .ok], 0⟩], 1, some 3⟩ [0] 1
      (by decide) (by decide)).2.2 ?_
    intro idx hidx
    have hidx0 : idx = 0 := by simpa using hidx
    subst hidx0
    exact ⟨1, le_refl 1,
      show Fut.headRes ⟨[.pend, .ok], 0⟩ = .pend
        ∧ SucceedsIn (Fut.afterPoll ⟨[.pend, .ok], 0⟩) 0 from ⟨rfl, rfl⟩⟩

/-- Claim C4: when the operation at the scan cursor reports failure `e`,
the poll immediately clears `pending_indices` and the backing array and
resolves to `Err e` — the conclusion holds for every possible state of all
other operations, so none of them is polled after the failure; and when
some pending operation's next poll reports failure, the whole poll
resolves to such a first-encountered failure verbatim with both lists
cleared. -/
theorem claim_C4 (ε : Type) (fs : TVec (Fut ε)) (tp : List Nat)
    (pending : Bool) (i : Nat) :
    (∀ e, i < tp.length → headAt fs (tp.getD i 0) = .err e →
        scanFrom fs tp pending i
          = (.ready (.error e), ⟨[], fs.cap, fs.blk⟩, ([] : List Nat)))
    ∧ ((∀ idx ∈ tp, idx < fs.data.length) → tp.Nodup →
        (∃ idx ∈ tp, ∃ e, headAt fs idx = .err e) →
        ∃ e, (∃ idx ∈ tp, headAt fs idx = .err e)
          ∧ pollMerger fs tp
              = (.ready (.error e), ⟨[], fs.cap, fs.blk⟩, ([] : List Nat))) := by
  constructor
  · intro e h hh
    exact scanFrom_err_imm fs tp pending i e h hh
  · intro Hb Hn hex
    obtain ⟨x, hx, e, he⟩ := hex
    obtain ⟨e2, ⟨y, hy, hey⟩, heq⟩ := scanFrom_err_spec fs tp false 0 Hb Hn
      ⟨x, by rw [List.drop_zero]; exact hx, e, he⟩
    rw [List.drop_zero] at hy
    exact ⟨e2, ⟨y, hy, hey⟩, heq⟩

/-- Witness for C4: one immediately-failing operation aborts the poll with
its error while a second, never-ready operation is discarded. -/
theorem claim_C4_witness :
    scanFrom (⟨[⟨[.err 42], 0⟩, ⟨[], 0⟩], 2, some 0⟩ : TVec (Fut Nat))
        [0, 1] false 0
      = (.ready (.error 42), ⟨[], 2, some 0⟩, [])
    ∧ ∃ e, (∃ idx ∈ [0, 1],
          headAt (⟨[⟨[.err 42], 0⟩, ⟨[], 0⟩], 2, some 0⟩ : TVec (Fut Nat)) idx
            = .err e)
        ∧ pollMerger (⟨[⟨[.err 42], 0⟩, ⟨[], 0⟩], 2, some 0⟩ : TVec (Fut Nat))
            [0, 1]
          = (.ready (.error e), ⟨[], 2, some 0⟩, []) := by
  constructor
  · exact (claim_C4 Nat ⟨[⟨[.err 42], 0⟩, ⟨[], 0⟩], 2, some 0⟩ [0, 1]
      false 0).1 42 (by decide) rfl
  · exact (claim_C4 Nat ⟨[⟨[.err 42], 0⟩, ⟨[], 0⟩], 2, some 0⟩ [0, 1]
      false 0).2 (by decide) (by decide) ⟨0, by simp, 42, rfl⟩

/-- Claim C5: binding a session reconstructs a zero-length typed array
over the cell's existing block and capacity (or an empty array if none was
ever allocated), and across any sequence of iterations with the same
layout in which every batch fits in the capacity, no new allocation
happens (the fresh-allocation counter never advances) and the same block
and capacity are carried through. -/
theorem claim_C5 (ε : Type) (fL : Nat × Nat) (m : FuturesMergerMemoryOwner)
    (p c fresh : Nat) (batches : List (List (Fut ε)))
    (hlay : m.layout = none ∨ m.layout = some fL) :
    (m.data = some p →
        (FuturesMergerMemoryOwner.borrow (ε := ε) fL m).1
          = .ok ⟨[], m.capacity, some p⟩)
    ∧ (m.data = none →
        (FuturesMergerMemoryOwner.borrow (ε := ε) fL m).1 = .ok ⟨[], 0, none⟩)
    ∧ (m.data = some p → m.capacity = c → 0 < c →
        (∀ b ∈ batches, b.length ≤ c) →
        ∃ m2, iterate fL batches m fresh = .ok (m2, fresh)
          ∧ m2.data = some p ∧ m2.capacity = c) := by
  refine ⟨?_, ?_, ?_⟩
  · intro hd
    rw [borrow_ok_some fL m p hlay hd]
  · intro hd
    rw [borrow_ok_none fL m hlay hd]
  · intro hd hcap hc hb
    exact iterate_reuse fL batches m p c fresh hd hcap hc hlay hb

/-- Witness for C5: two iterations of one and two operations over a cell
holding block 5 with capacity 2 finish with the same block, the same
capacity and no advance of the allocation counter. -/
theorem claim_C5_witness :
    (FuturesMergerMemoryOwner.borrow (ε := Unit) (8, 8)
        (⟨some 5, 2, [], some (8, 8), some (8, 8)⟩
          : FuturesMergerMemoryOwner)).1 = .ok ⟨[], 2, some 5⟩
    ∧ ∃ m2, iterate (8, 8)
        ([[⟨[.ok], 0⟩], [⟨[.ok], 0⟩, ⟨[.ok], 0⟩]] : List (List (Fut Unit)))
        (⟨some 5, 2, [], some (8, 8), some (8, 8)⟩
          : FuturesMergerMemoryOwner) 10
        = .ok (m2, 10) ∧ m2.data = some 5 ∧ m2.capacity = 2 := by
  constructor
  · exact (claim_C5 Unit (8, 8) ⟨some 5, 2, [], some (8, 8), some (8, 8)⟩
      5 2 10 [] (Or.inr rfl)).1 rfl
  · exact (claim_C5 Unit (8, 8) ⟨some 5, 2, [], some (8, 8), some (8, 8)⟩
      5 2 10 [[⟨[.ok], 0⟩], [⟨[.ok], 0⟩, ⟨[.ok], 0⟩]] (Or.inr rfl)).2.2
      rfl rfl (by decide) (by decide)

/-- Claim C6: destroying the handle clears the typed array and
`pending_indices` to length 0 and changes nothing else (capacity and block
untouched); a scan, wherever it stops, never changes capacity or block,
and on completion it leaves the array and index list cleared; hence the
owner produced by the session drop after abandoning a handle mid-scan
equals the one produced had the scan never run (and so also after running
to completion), making a fresh session behave identically. -/
theorem claim_C6 (ε : Type) (v : TVec (Fut ε)) (tp : List Nat)
    (fs : TVec (Fut ε)) (tp0 : List Nat) (pending : Bool) (i : Nat)
    (fL : Nat × Nat) (m : FuturesMergerMemoryOwner) :
    ((awaitDrop v tp).1.data = [] ∧ (awaitDrop v tp).2 = ([] : List Nat)
      ∧ (awaitDrop v tp).1.cap = v.cap ∧ (awaitDrop v tp).1.blk = v.blk)
    ∧ (∀ res fs2 tp2, scanFrom fs tp0 pending i = (res, fs2, tp2) →
        fs2.cap = fs.cap ∧ fs2.blk = fs.blk)
    ∧ (∀ r fs2 tp2, scanFrom fs tp0 pending i = (.ready r, fs2, tp2) →
        fs2.data = [] ∧ tp2 = [])
    ∧ (∀ res fs2 tp2, scanFrom fs tp0 pending i = (res, fs2, tp2) →
        mergerDrop fL m (awaitDrop fs2 tp2).1
          = mergerDrop fL m (awaitDrop fs tp0).1) := by
  refine ⟨⟨rfl, rfl, rfl, rfl⟩, ?_, scanFrom_ready_clear fs tp0 pending i, ?_⟩
  · intro res fs2 tp2 heq
    have h := scanFrom_cap_blk fs tp0 pending i
    rw [heq] at h
    exact h
  · intro res fs2 tp2 heq
    have h := scanFrom_cap_blk fs tp0 pending i
    rw [heq] at h
    exact mergerDrop_congr fL m _ _ h.1 h.2

/-- Witness for C6 at concrete inputs, with the scan equation obtained
from the fail-fast theorem. -/
theorem claim_C6_witness :
    (awaitDrop (⟨[⟨[.pend], 0⟩], 1, some 4⟩ : TVec (Fut Unit)) [0]).1.cap = 1
    ∧ mergerDrop (8, 8) FuturesMergerMemoryOwner.default
        (awaitDrop (⟨[], 2, some 0⟩ : TVec (Fut Nat)) []).1
      = mergerDrop (8, 8) FuturesMergerMemoryOwner.default
        (awaitDrop (⟨[⟨[.err 42], 0⟩, ⟨[], 0⟩], 2, some 0⟩ : TVec (Fut Nat))
          [0, 1]).1 := by
  constructor
  · exact (claim_C6 Unit ⟨[⟨[.pend], 0⟩], 1, some 4⟩ [0]
      ⟨[], 0, none⟩ [] false 0 (8, 8) FuturesMergerMemoryOwner.default).1.2.2.1
  · exact ((claim_C6 Nat ⟨[], 0, none⟩ []
      ⟨[⟨[.err 42], 0⟩, ⟨[], 0⟩], 2, some 0⟩ [0, 1] false 0 (8, 8)
      FuturesMergerMemoryOwner.default).2.2.2 (.ready (.error 42))
      ⟨[], 2, some 0⟩ []
      (scanFrom_err_imm ⟨[⟨[.err 42], 0⟩, ⟨[], 0⟩], 2, some 0⟩ [0, 1]
        false 0 42 (by decide) rfl)).symm

/-- Claim C7: `push` appends the operation to the backing array and
appends the new element's index (the new length minus one) to
`pending_indices`; consequently, pushing any batch into a fresh session
(empty array, empty index list) leaves `pending_indices = [0, …, K-1]`,
whose entries are distinct and in bounds for the array. -/
theorem claim_C7 (ε : Type) (m : FuturesMergerMemoryOwner)
    (v : TVec (Fut ε)) (f : Fut ε) (fresh : Nat) (ops : List (Fut ε)) :
    ((mergerPush m v f fresh).2.1.data = v.data ++ [f]
      ∧ (mergerPush m v f fresh).1.to_poll = m.to_poll ++ [v.data.length])
    ∧ (m.to_poll = [] → v.data = [] →
        (pushAll m v ops fresh).1.to_poll = List.range ops.length
        ∧ (pushAll m v ops fresh).2.1.data = ops
        ∧ (pushAll m v ops fresh).1.to_poll.Nodup
        ∧ ∀ idx ∈ (pushAll m v ops fresh).1.to_poll,
            idx < (pushAll m v ops fresh).2.1.data.length) := by
  constructor
  · constructor
    · show (v.push f fresh).1.data = v.data ++ [f]
      exact push_data v f fresh
    · show m.to_poll ++ [(v.push f fresh).1.data.length - 1]
        = m.to_poll ++ [v.data.length]
      rw [push_data]
      simp
  · intro hmt hvd
    obtain ⟨h1, -, -, -, -, h6⟩ := pushAll_spec ops m v fresh
    have hto : (pushAll m v ops fresh).1.to_poll = List.range ops.length := by
      rw [h1, hmt, hvd, List.range_eq_range']
      simp
    have hdata : (pushAll m v ops fresh).2.1.data = ops := by
      rw [h6, hvd]
      simp
    refine ⟨hto, hdata, ?_, ?_⟩
    · rw [hto]
      exact List.nodup_range ops.length
    · intro idx hidx
      rw [hto] at hidx
      rw [hdata]
      exact List.mem_range.mp hidx

/-- Witness for C7: pushing two operations into a fresh session yields
`pending_indices = [0, 1]` and the two-element array. -/
theorem claim_C7_witness :
    (pushAll FuturesMergerMemoryOwner.default
        (⟨[], 0, none⟩ : TVec (Fut Unit)) [⟨[], 0⟩, ⟨[.ok], 0⟩] 0).1.to_poll
      = List.range 2
    ∧ (pushAll FuturesMergerMemoryOwner.default
        (⟨[], 0, none⟩ : TVec (Fut Unit)) [⟨[], 0⟩, ⟨[.ok], 0⟩] 0).2.1.data
      = [⟨[], 0⟩, ⟨[.ok], 0⟩] := by
  have h := (claim_C7 Unit FuturesMergerMemoryOwner.default ⟨[], 0, none⟩
    ⟨[], 0⟩ 0 [⟨[], 0⟩, ⟨[.ok], 0⟩]).2 rfl rfl
  exact ⟨h.1, h.2.1⟩

/-- Claim C8: when the operation at the scan cursor completes
successfully, the scan continues at the same cursor position on the
swap-removed index list with that future advanced in place; the
swap-removal shortens the list by one, removes exactly that index, and
(when the cursor is not at the last position) moves the old last index
into the cursor's slot, so it is examined next. -/
theorem claim_C8 (ε : Type) (fs : TVec (Fut ε)) (tp : List Nat)
    (pending : Bool) (i : Nat) (h : i < tp.length)
    (hok : headAt fs (tp.getD i 0) = .ok) :
    scanFrom fs tp pending i
      = scanFrom
          ⟨fs.data.set (tp.getD i 0)
              ((fs.data.getD (tp.getD i 0) default).afterPoll),
            fs.cap, fs.blk⟩
          (swapRemove tp i) pending i
    ∧ (swapRemove tp i).length = tp.length - 1
    ∧ (tp.Nodup → tp.getD i 0 ∉ swapRemove tp i)
    ∧ (i + 1 < tp.length → (swapRemove tp i).getD i 0 = tp.getLast?.getD 0) := by
  refine ⟨?_, ?_, ?_, ?_⟩
  · have hok' : (fs.data.getD (tp.getD i 0) default).poll.1 = PollRes.ok := hok
    rw [scanFrom]
    simp only [dif_pos h]
    rw [hok']
    rfl
  · refine swapRemove_length tp i ?_
    intro hc
    rw [hc] at h
    simp at h
  · intro Hn hc
    exact ((mem_swapRemove tp i Hn h _).mp hc).2 rfl
  · intro hlt
    exact swapRemove_getD tp i hlt

/-- Witness for C8 on `tp = [0, 1, 2]`, cursor 0, slot 0 succeeding. -/
theorem claim_C8_witness :
    scanFrom (⟨[⟨[.ok], 0⟩, ⟨[], 0⟩, ⟨[], 0⟩], 3, some 0⟩ : TVec (Fut Unit))
        [0, 1, 2] false 0
      = scanFrom
          ⟨[⟨[], 1⟩, ⟨[], 0⟩, ⟨[], 0⟩], 3, some 0⟩ (swapRemove [0, 1, 2] 0)
          false 0
    ∧ (swapRemove [0, 1, 2] 0).length = 2
    ∧ (0 : Nat) ∉ swapRemove [0, 1, 2] 0
    ∧ (swapRemove [0, 1, 2] 0).getD 0 0 = 2 := by
  have h := claim_C8 Unit ⟨[⟨[.ok], 0⟩, ⟨[], 0⟩, ⟨[], 0⟩], 3, some 0⟩
    [0, 1, 2] false 0 (by decide) rfl
  exact ⟨h.1, h.2.1, h.2.2.1 (by decide), h.2.2.2 (by decide)⟩

/-- Claim C9: an index absent from `pending_indices` is not polled during
a poll of the handle and does not reappear: on a pending outcome the
future at that index is bit-for-bit unchanged (its poll counter included)
and the index is still absent, and the same holds across any number of
pending resumptions. -/
theorem claim_C9 (ε : Type) (fs : TVec (Fut ε)) (tp : List Nat)
    (Hn : tp.Nodup) (idx : Nat) (hidx : idx ∉ tp) :
    (∀ fs2 tp2, pollMerger fs tp = (.pending, fs2, tp2) →
        idx ∉ tp2
        ∧ fs2.data.getD idx default = fs.data.getD idx default
        ∧ (fs2.data.getD idx default).polls = (fs.data.getD idx default).polls)
    ∧ (∀ fuel fs2 tp2, drive fuel fs tp = (none, fs2, tp2) →
        idx ∉ tp2 ∧ fs2.data.getD idx default = fs.data.getD idx default) := by
  constructor
  · intro fs2 tp2 heq
    obtain ⟨f1, m1, -⟩ := scanFrom_pending_frame fs tp false 0 Hn fs2 tp2 heq
    have hfr := f1 idx (by rw [List.drop_zero]; exact hidx)
    exact ⟨fun hc => hidx (m1 idx hc), hfr, by rw [hfr]⟩
  · intro fuel fs2 tp2 heq
    obtain ⟨f1, m1, -⟩ := drive_pending_frame fuel fs tp Hn fs2 tp2 heq
    exact ⟨fun hc => hidx (m1 idx hc), f1 idx hidx⟩

/-- Witness for C9: polling a batch whose slot 0 pends while slot 1 is
already resolved (absent from the pending list) returns Pending, and the
future in slot 1 — its poll counter included — is untouched by that poll,
with index 1 still absent from the resulting pending list. -/
theorem claim_C9_witness :
    (1 : Nat) ∉ ([0] : List Nat)
    ∧ (⟨[⟨[], 1⟩, ⟨[], 5⟩], 2, some 0⟩
          : TVec (Fut Unit)).data.getD 1 default
        = (⟨[⟨[.pend], 0⟩, ⟨[], 5⟩], 2, some 0⟩
          : TVec (Fut Unit)).data.getD 1 default
    ∧ ((⟨[⟨[], 1⟩, ⟨[], 5⟩], 2, some 0⟩
          : TVec (Fut Unit)).data.getD 1 default).polls
        = ((⟨[⟨[.pend], 0⟩, ⟨[], 5⟩], 2, some 0⟩
          : TVec (Fut Unit)).data.getD 1 default).polls := by
  have hpoll : pollMerger (ε := Unit)
      (⟨[⟨[.pend], 0⟩, ⟨[], 5⟩], 2, some 0⟩ : TVec (Fut Unit)) [0]
      = (.pending, ⟨[⟨[], 1⟩, ⟨[], 5⟩], 2, some 0⟩, [0]) := by
    unfold pollMerger
    rw [scanFrom]
    simp [Fut.poll, Fut.headRes, Fut.afterPoll]
    rw [scanFrom]
    simp
  exact (claim_C9 Unit ⟨[⟨[.pend], 0⟩, ⟨[], 5⟩], 2, some 0⟩ [0]
    (by decide) 1 (by decide)).1 ⟨[⟨[], 1⟩, ⟨[], 5⟩], 2, some 0⟩ [0] hpoll

/-- Claim C10: the erased destructor `drop_vec` is a no-op when given no
raw pointer, so destroying the cell while its block is absent performs no
deallocation (in particular no double free) even when a destructor was
recorded. -/
theorem claim_C10 (m : FuturesMergerMemoryOwner) (tag : Nat × Nat)
    (cap : Nat) :
    drop_vec tag none cap = [] ∧ (m.data = none → ownerDrop m = []) := by
  constructor
  · rfl
  · intro h
    unfold ownerDrop
    cases hdf : m.drop_fn with
    | none => rfl
    | some tag2 =>
      rw [h]
      rfl

/-- Witness for C10: a cell with a recorded destructor but no block
deallocates nothing. -/
theorem claim_C10_witness :
    drop_vec (8, 8) none 3 = []
    ∧ ownerDrop ⟨none, 5, [], some (8, 8), some (8, 8)⟩ = [] :=
  ⟨(claim_C10 FuturesMergerMemoryOwner.default (8, 8) 3).1,
    (claim_C10 ⟨none, 5, [], some (8, 8), some (8, 8)⟩ (8, 8) 3).2 rfl⟩

end MergeFuture
